import Mathlib

/-
Verification of the MonkeysJS fine-grained reactive engine
(src/core/reactive.js, concatenated in src/src/dom/features.test.js
after the document separator; source line numbers below refer to that
file).

The engine is shallowly embedded: JS objects are identified by natural
number ids, JS property keys and primitive values are explicit inductive
types, the WeakMap/Map/Set registry becomes association lists whose
iteration order models the insertion order of JS Map/Set, and each
intercepted operation (track, trigger, the proxy set handler, ref get/set,
computed reads, the watch scheduler, batch) becomes a pure state-passing
function translated clause by clause from the source.
-/

namespace MonkeysJS

/-- Property keys of the reactive engine. JS string keys that are canonical
numeric strings are modelled by idx, every other string key by name, and
the single symbol key (Symbol.for applied to the word iterate, used by the
ownKeys handler, src:293) by iterateSym. The coercion ToNumber used by the
length comparison in trigger (src:215) yields NaN on every non-numeric
string, so only idx keys compare successfully against a length. -/
inductive JKey where
  | idx : Nat → JKey
  | name : String → JKey
  | iterateSym : JKey
deriving DecidableEq, Repr

/-- Primitive JS values as far as the engine inspects them: numbers (NaN
kept separate because strict equality treats it specially), strings,
booleans, undefined, null, and object references identified by id. -/
inductive JVal where
  | num : Int → JVal
  | nan : JVal
  | str : String → JVal
  | bool : Bool → JVal
  | undef : JVal
  | nullV : JVal
  | obj : Nat → JVal
deriving DecidableEq, Repr

/-- Strict JS equality (the three equal signs operator): NaN is unequal to
everything including itself; all other values compare by identity of the
constructor data. -/
def strictEq (a b : JVal) : Bool :=
  match a, b with
  | .nan, _ => false
  | _, .nan => false
  | a, b => decide (a = b)

/-- Change kinds passed to trigger (src:184): the type argument with
values set, add and delete. -/
inductive ChangeKind where
  | set : ChangeKind
  | add : ChangeKind
  | delete : ChangeKind
deriving DecidableEq, Repr

/-- Association list lookup with default, modelling Map.get with a
fallback. The first entry whose key matches is taken. -/
def lookupD {κ ν : Type} [DecidableEq κ] (r : List (κ × ν)) (k : κ) (d : ν) : ν :=
  ((r.find? (fun p => decide (p.1 = k))).map Prod.snd).getD d

/-- Association list update, modelling Map.set: an existing entry is
replaced in place, otherwise the pair is appended, preserving the
insertion order that JS Map iteration exposes. -/
def setA {κ ν : Type} [DecidableEq κ] (r : List (κ × ν)) (k : κ) (v : ν) : List (κ × ν) :=
  if r.any (fun p => decide (p.1 = k)) then
    r.map (fun p => if p.1 = k then (p.1, v) else p)
  else r ++ [(k, v)]

/-- Insertion into a JS Set: a no-op when the element is present,
otherwise appended at the end (JS Sets iterate in insertion order). -/
def insertUniq {α : Type} [DecidableEq α] (l : List α) (e : α) : List α :=
  if e ∈ l then l else l ++ [e]

theorem mem_insertUniq {α : Type} [DecidableEq α] (l : List α) (e a : α) :
    a ∈ insertUniq l e ↔ a ∈ l ∨ a = e := by
  unfold insertUniq
  by_cases h : e ∈ l
  · simp only [if_pos h]
    constructor
    · exact Or.inl
    · rintro (ha | rfl)
      · exact ha
      · exact h
  · simp [if_neg h]

theorem self_mem_insertUniq {α : Type} [DecidableEq α] (l : List α) (e : α) :
    e ∈ insertUniq l e :=
  (mem_insertUniq l e e).mpr (Or.inr rfl)

theorem mem_insertUniq_of_mem {α : Type} [DecidableEq α] (l : List α) (e a : α)
    (h : a ∈ l) : a ∈ insertUniq l e :=
  (mem_insertUniq l e a).mpr (Or.inl h)

theorem nodup_insertUniq {α : Type} [DecidableEq α] (l : List α) (e : α)
    (h : l.Nodup) : (insertUniq l e).Nodup := by
  unfold insertUniq
  by_cases he : e ∈ l
  · simpa [if_pos he]
  · rw [if_neg he]
    exact List.nodup_append.mpr ⟨h, List.nodup_singleton e, by
      intro a ha hae
      rw [List.mem_singleton] at hae
      exact he (hae ▸ ha)⟩

theorem setA_cons_ne {κ ν : Type} [DecidableEq κ] (p : κ × ν) (r : List (κ × ν))
    (k : κ) (v : ν) (hp : p.1 ≠ k) : setA (p :: r) k v = p :: setA r k v := by
  unfold setA
  simp only [List.any_cons, decide_eq_true_eq]
  by_cases h : r.any (fun q => decide (q.1 = k)) = true
  · simp [hp, h]
  · simp only [h]
    simp [hp]

theorem lookupD_setA {κ ν : Type} [DecidableEq κ] (r : List (κ × ν)) (k : κ) (v d : ν) :
    lookupD (setA r k v) k d = v := by
  induction r with
  | nil =>
    simp [setA, lookupD, List.find?]
  | cons p r ih =>
    by_cases hp : p.1 = k
    · unfold setA
      have hany : (p :: r).any (fun q => decide (q.1 = k)) = true := by
        simp [List.any_cons, hp]
      rw [if_pos hany]
      simp only [List.map_cons, if_pos hp]
      unfold lookupD
      rw [List.find?_cons_of_pos _ (by simp [hp])]
      rfl
    · rw [setA_cons_ne p r k v hp]
      unfold lookupD
      rw [List.find?_cons_of_neg _ (by simp [hp])]
      exact ih

theorem find?_fst_map_setA {κ ν : Type} [DecidableEq κ] (r : List (κ × ν)) (k k2 : κ)
    (v : ν) (hne : k2 ≠ k) :
    (r.map (fun p => if p.1 = k then (p.1, v) else p)).find? (fun p => decide (p.1 = k2)) =
    r.find? (fun p => decide (p.1 = k2)) := by
  induction r with
  | nil => rfl
  | cons p r ih =>
    by_cases hp2 : p.1 = k2
    · have hpk : ¬ (p.1 = k) := fun h => hne (hp2 ▸ h ▸ rfl)
      simp only [List.map_cons, if_neg hpk]
      rw [List.find?_cons_of_pos _ (by simp [hp2]), List.find?_cons_of_pos _ (by simp [hp2])]
    · simp only [List.map_cons]
      have hfst : (if p.1 = k then (p.1, v) else p).1 = p.1 := by
        by_cases h : p.1 = k <;> simp [h]
      rw [List.find?_cons_of_neg _ (by simp [hfst, hp2]),
        List.find?_cons_of_neg _ (by simp [hp2])]
      exact ih

theorem find?_append_some {α : Type} (f : α → Bool) (l₁ l₂ : List α) (x : α)
    (h : l₁.find? f = some x) : (l₁ ++ l₂).find? f = some x := by
  induction l₁ with
  | nil => simp [List.find?] at h
  | cons a l ih =>
    by_cases ha : f a = true
    · rw [List.find?_cons_of_pos _ ha] at h
      rw [List.cons_append, List.find?_cons_of_pos _ ha]
      exact h
    · rw [List.find?_cons_of_neg _ (by simpa using ha)] at h
      rw [List.cons_append, List.find?_cons_of_neg _ (by simpa using ha)]
      exact ih h

theorem lookupD_setA_ne {κ ν : Type} [DecidableEq κ] (r : List (κ × ν)) (k k2 : κ) (v d : ν)
    (hne : k2 ≠ k) : lookupD (setA r k v) k2 d = lookupD r k2 d := by
  unfold setA
  by_cases h : r.any (fun p => decide (p.1 = k)) = true
  · rw [if_pos h]
    unfold lookupD
    rw [find?_fst_map_setA r k k2 v hne]
  · rw [if_neg h]
    unfold lookupD
    cases hf : r.find? (fun p => decide (p.1 = k2)) with
    | some x => rw [find?_append_some _ _ _ _ hf]
    | none =>
      rw [List.find?_append, hf]
      simp [List.find?, Ne.symm hne]

/-- Dependency sets: mutable JS Sets of effect functions, with effects
named by ids; iteration follows list order as JS Set iteration follows
insertion order. -/
abbrev DepSet := List Nat

/-- Per-target dependency map (the inner Map of targetMap, src:95):
property key to dependency set. -/
abbrev DepsMap := List (JKey × DepSet)

/-- Global state of the dependency registry: targetMap (src:95) maps a
target object id to its per-key dependency map, and effDeps records for
each effect the set effectFn.deps of dependency sets it joined (src:118),
identified by their (target, key) address. effActive holds the per-effect
active flag (src:120, effects are created active, hence the default true),
and effStopped records the effects whose onStop hook has been invoked
(src:148). -/
structure EffEngine where
  targetMap : List (Nat × DepsMap)
  effDeps : List (Nat × List (Nat × JKey))
  effActive : List (Nat × Bool)
  effStopped : List Nat
deriving DecidableEq, Repr

/-- Dependency set registered for a (target, key) pair, empty when no
entry exists (Map.get returning undefined). -/
def getDep (s : EffEngine) (tgt : Nat) (key : JKey) : DepSet :=
  lookupD (lookupD s.targetMap tgt []) key []

/-- Back-reference set effectFn.deps of an effect. -/
def getEffDeps (s : EffEngine) (e : Nat) : List (Nat × JKey) :=
  lookupD s.effDeps e []

/-- Active flag of an effect; effects are created with active set to true
(src:120), modelled by the default. -/
def isActiveE (s : EffEngine) (e : Nat) : Bool :=
  lookupD s.effActive e true

/-- Function track (src:159-176): a no-op without a running effect;
otherwise the (target, key) dependency set is located or created, the
running effect is added to it unless already present, and the dependency
set is added to the back-reference set of the effect. -/
def track (s : EffEngine) (active : Option Nat) (tgt : Nat) (key : JKey) : EffEngine :=
  match active with
  | none => s
  | some e =>
    let depsMap := lookupD s.targetMap tgt []
    let dep := lookupD depsMap key []
    if e ∈ dep then s
    else
      { s with
        targetMap := setA s.targetMap tgt (setA depsMap key (dep ++ [e])),
        effDeps := setA s.effDeps e (insertUniq (getEffDeps s e) (tgt, key)) }

/-- Function cleanup (src:133-138): the effect is deleted from every
dependency set recorded in its back-reference set, which is then
cleared. -/
def cleanupEff (s : EffEngine) (e : Nat) : EffEngine :=
  let tks := getEffDeps s e
  { s with
    targetMap := s.targetMap.map (fun tp =>
      (tp.1, tp.2.map (fun kp =>
        if (tp.1, kp.1) ∈ tks then (kp.1, kp.2.filter (fun x => decide (x ≠ e))) else kp))),
    effDeps := setA s.effDeps e [] }

/-- Function stop (src:144-152): when the effect is active it is cleaned
up, its active flag is cleared, and its onStop hook (when configured) is
invoked; an already inactive effect is left untouched. -/
def stopEff (s : EffEngine) (e : Nat) (hasOnStop : Bool) : EffEngine :=
  if isActiveE s e then
    let s1 := cleanupEff s e
    { s1 with
      effActive := setA s1.effActive e false,
      effStopped := if hasOnStop then s1.effStopped ++ [e] else s1.effStopped }
  else s

/-- Consistency of the back-references of an effect with the registry:
every dependency set containing the effect is recorded in the set
effectFn.deps of that effect. The real system establishes this in track
(src:172-175), which inserts into both sides together. -/
def backrefOK (s : EffEngine) (e : Nat) : Bool :=
  s.targetMap.all (fun tp => tp.2.all (fun kp =>
    decide (e ∈ kp.2 → (tp.1, kp.1) ∈ getEffDeps s e)))

theorem self_mem_getDep_track (s : EffEngine) (e : Nat) (tgt : Nat) (key : JKey) :
    e ∈ getDep (track s (some e) tgt key) tgt key := by
  unfold track
  simp only
  by_cases h : e ∈ lookupD (lookupD s.targetMap tgt []) key []
  · rw [if_pos h]
    exact h
  · rw [if_neg h]
    unfold getDep
    simp only
    rw [lookupD_setA, lookupD_setA]
    exact List.mem_append.mpr (Or.inr (List.mem_singleton.mpr rfl))

theorem mem_setA {κ ν : Type} [DecidableEq κ] (r : List (κ × ν)) (k : κ) (v : ν)
    (p2 : κ × ν) (h : p2 ∈ setA r k v) : p2 ∈ r ∨ p2 = (k, v) := by
  unfold setA at h
  by_cases hany : r.any (fun p => decide (p.1 = k)) = true
  · rw [if_pos hany] at h
    obtain ⟨p, hp, hpe⟩ := List.mem_map.mp h
    by_cases hpk : p.1 = k
    · right
      rw [if_pos hpk] at hpe
      rw [← hpe, hpk]
    · left
      rw [if_neg hpk] at hpe
      rw [← hpe]
      exact hp
  · rw [if_neg hany] at h
    rcases List.mem_append.mp h with h2 | h2
    · exact Or.inl h2
    · exact Or.inr (List.mem_singleton.mp h2)

theorem lookupD_cases {κ ν : Type} [DecidableEq κ] (r : List (κ × ν)) (k : κ) (d : ν) :
    lookupD r k d = d ∨ ∃ p, p ∈ r ∧ p.1 = k ∧ p.2 = lookupD r k d := by
  unfold lookupD
  cases hf : r.find? (fun p => decide (p.1 = k)) with
  | none => exact Or.inl rfl
  | some p =>
    refine Or.inr ⟨p, List.mem_of_find?_eq_some hf, ?_, rfl⟩
    have := List.find?_some hf
    rwa [decide_eq_true_eq] at this

/-- Back-reference consistency is established and maintained by track
itself: whenever track inserts an effect into a dependency set it also
records that set in the back-reference set of the effect (src:172-175),
so the backrefOK invariant assumed by the stop theorem is preserved by
every tracking step, for every effect. -/
theorem track_backrefOK (s : EffEngine) (active : Option Nat) (tgt : Nat) (key : JKey)
    (e : Nat) (hbr : backrefOK s e = true) :
    backrefOK (track s active tgt key) e = true := by
  cases active with
  | none => exact hbr
  | some e2 =>
    unfold track
    simp only
    by_cases hin : e2 ∈ lookupD (lookupD s.targetMap tgt []) key []
    · rw [if_pos hin]
      exact hbr
    · rw [if_neg hin]
      have hold : ∀ tp ∈ s.targetMap, ∀ kp ∈ tp.2, e ∈ kp.2 →
          (tp.1, kp.1) ∈ getEffDeps s e := by
        intro tp htp kp hkp hmem
        have h1 := (List.all_eq_true.mp hbr) tp htp
        have h2 := (List.all_eq_true.mp h1) kp hkp
        rw [decide_eq_true_eq] at h2
        exact h2 hmem
      have hlift : ∀ tk : Nat × JKey, tk ∈ getEffDeps s e →
          tk ∈ getEffDeps { s with
            targetMap := setA s.targetMap tgt
              (setA (lookupD s.targetMap tgt []) key
                (lookupD (lookupD s.targetMap tgt []) key [] ++ [e2])),
            effDeps := setA s.effDeps e2 (insertUniq (getEffDeps s e2) (tgt, key)) } e := by
        intro tk htk
        show tk ∈ lookupD (setA s.effDeps e2 (insertUniq (getEffDeps s e2) (tgt, key))) e []
        by_cases hee : e = e2
        · subst hee
          rw [lookupD_setA]
          exact mem_insertUniq_of_mem _ _ _ htk
        · rw [lookupD_setA_ne s.effDeps e2 e _ _ hee]
          exact htk
      rw [backrefOK, List.all_eq_true]
      intro tp htp
      rw [List.all_eq_true]
      intro kp hkp
      rw [decide_eq_true_eq]
      intro hmem
      rcases mem_setA s.targetMap tgt _ tp htp with htp2 | rfl
      · exact hlift _ (hold tp htp2 kp hkp hmem)
      · rcases mem_setA (lookupD s.targetMap tgt []) key _ kp hkp with hkp2 | rfl
        · rcases lookupD_cases s.targetMap tgt ([] : DepsMap) with hdm | ⟨p0, hp0, hp01, hp02⟩
          · rw [hdm] at hkp2
            exact absurd hkp2 (List.not_mem_nil kp)
          · rw [← hp02] at hkp2
            have := hold p0 hp0 kp hkp2 hmem
            rw [hp01] at this
            exact hlift _ this
        · simp only
          rcases List.mem_append.mp hmem with hd | he2
          · rcases lookupD_cases (lookupD s.targetMap tgt []) key ([] : DepSet) with hdp | ⟨q0, hq0, hq01, hq02⟩
            · rw [hdp] at hd
              exact absurd hd (List.not_mem_nil e)
            · rcases lookupD_cases s.targetMap tgt ([] : DepsMap) with hdm | ⟨p0, hp0, hp01, hp02⟩
              · rw [hdm] at hq0
                exact absurd hq0 (List.not_mem_nil q0)
              · rw [← hp02] at hq0
                rw [← hq02] at hd
                have := hold p0 hp0 q0 hq0 hd
                rw [hp01, hq01] at this
                exact hlift _ this
          · have hee : e = e2 := List.mem_singleton.mp he2
            subst hee
            show (tgt, key) ∈ lookupD (setA s.effDeps e
              (insertUniq (getEffDeps s e) (tgt, key))) e []
            rw [lookupD_setA]
            exact self_mem_insertUniq _ _

/-- Buckets collected by trigger (src:188-189): the Set of derived
(Computed-backing) effects and the Set of plain effects, in insertion
order. -/
structure Buckets where
  derived : List Nat
  plain : List Nat
deriving DecidableEq, Repr

/-- All collected effect ids in replay order: trigger runs the derived
bucket first, then the plain bucket (src:221-237). -/
def allIds (b : Buckets) : List Nat :=
  b.derived ++ b.plain

/-- Helper addEffects of trigger (src:191-203): every effect of a
dependency set other than the currently running one is placed in the
derived bucket when its options carry the computed flag, and in the plain
bucket otherwise; Set semantics make the insertion idempotent. -/
def addEffects (active : Option Nat) (isComputed : Nat → Bool) (dep : DepSet)
    (b : Buckets) : Buckets :=
  dep.foldl (fun b e =>
    if some e = active then b
    else if isComputed e then { b with derived := insertUniq b.derived e }
    else { b with plain := insertUniq b.plain e }) b

/-- Comparison of a depsMap key against the array length in trigger
(src:215): the JS expression coerces the string key with ToNumber, so a
numeric-string key compares its numeric value while every other key
yields NaN and the comparison is false. -/
def keyGeLen (k : JKey) (len : Nat) : Bool :=
  match k with
  | .idx n => decide (len ≤ n)
  | _ => false

/-- First collection step of trigger (src:205): the dependency set of the
written key itself feeds both buckets, starting from empty Sets. -/
def triggerBase (active : Option Nat) (isComputed : Nat → Bool) (m : DepsMap)
    (key : JKey) : Buckets :=
  addEffects active isComputed (lookupD m key []) ⟨[], []⟩

/-- Second collection step of trigger (src:208-210): on an addition to an
array, the dependents of the synthetic length key are collected as
well. -/
def triggerWithLen (active : Option Nat) (isComputed : Nat → Bool) (m : DepsMap)
    (isArr : Bool) (key : JKey) (kind : ChangeKind) : Buckets :=
  if kind = ChangeKind.add ∧ isArr = true then
    addEffects active isComputed (lookupD m (JKey.name "length") [])
      (triggerBase active isComputed m key)
  else triggerBase active isComputed m key

/-- Collection phase of trigger (src:184-219): effects of the dependency
set of the written key, plus, on an array addition, the dependents of the
synthetic length key (src:208-210), plus, when the written key is length
of an array, the dependents of every key at or beyond the new length
(src:213-219). The length argument is the length of the target at trigger
time, i.e. after the write. -/
def triggerCollect (active : Option Nat) (isComputed : Nat → Bool) (m : DepsMap)
    (isArr : Bool) (len : Nat) (key : JKey) (kind : ChangeKind) : Buckets :=
  if key = JKey.name "length" ∧ isArr = true then
    m.foldl (fun b p => if keyGeLen p.1 len then addEffects active isComputed p.2 b else b)
      (triggerWithLen active isComputed m isArr key kind)
  else triggerWithLen active isComputed m isArr key kind

/-- Effect ids notified by one trigger call, derived bucket first. -/
def triggerIds (active : Option Nat) (isComputed : Nat → Bool) (m : DepsMap)
    (isArr : Bool) (len : Nat) (key : JKey) (kind : ChangeKind) : List Nat :=
  allIds (triggerCollect active isComputed m isArr len key kind)

/-- Replay action for one notified effect (src:222-237): the scheduler is
invoked when the effect carries one, otherwise the effect runs
directly. -/
inductive ReplayAct where
  | direct : Nat → ReplayAct
  | viaSched : Nat → ReplayAct
deriving DecidableEq, Repr

/-- Replay dispatch of a bucket (src:222-227 and 231-237). -/
def replayOf (hasSched : Nat → Bool) (es : List Nat) : List ReplayAct :=
  es.map (fun e => if hasSched e then ReplayAct.viaSched e else ReplayAct.direct e)

/-- Ordered replay sequence of one trigger call: the derived bucket
(src:222-228) strictly before the plain bucket (src:231-237). -/
def triggerReplay (active : Option Nat) (isComputed hasSched : Nat → Bool) (m : DepsMap)
    (isArr : Bool) (len : Nat) (key : JKey) (kind : ChangeKind) : List ReplayAct :=
  let b := triggerCollect active isComputed m isArr len key kind
  replayOf hasSched b.derived ++ replayOf hasSched b.plain

theorem mem_allIds_addEffects_of_mem (a : Option Nat) (ic : Nat → Bool) (dep : DepSet)
    (e : Nat) : ∀ b : Buckets, e ∈ allIds b → e ∈ allIds (addEffects a ic dep b) := by
  induction dep with
  | nil => intro b hb; exact hb
  | cons x xs ih =>
    intro b hb
    rw [addEffects, List.foldl_cons]
    apply ih
    by_cases hx : some x = a
    · simpa [hx] using hb
    · rw [if_neg hx]
      by_cases hc : ic x
      · simp only [if_pos hc]
        rcases List.mem_append.mp hb with h | h
        · exact List.mem_append.mpr (Or.inl (mem_insertUniq_of_mem _ _ _ h))
        · exact List.mem_append.mpr (Or.inr h)
      · simp only [if_neg hc]
        rcases List.mem_append.mp hb with h | h
        · exact List.mem_append.mpr (Or.inl h)
        · exact List.mem_append.mpr (Or.inr (mem_insertUniq_of_mem _ _ _ h))

theorem mem_allIds_addEffects_complete (a : Option Nat) (ic : Nat → Bool) (dep : DepSet)
    (e : Nat) (hne : some e ≠ a) :
    ∀ b : Buckets, e ∈ dep → e ∈ allIds (addEffects a ic dep b) := by
  induction dep with
  | nil => intro b hb; exact absurd hb (List.not_mem_nil e)
  | cons x xs ih =>
    intro b hb
    rw [addEffects, List.foldl_cons]
    rcases List.mem_cons.mp hb with rfl | hxs
    · rw [if_neg hne]
      by_cases hc : ic e
      · simp only [if_pos hc]
        exact mem_allIds_addEffects_of_mem a ic xs e _
          (List.mem_append.mpr (Or.inl (self_mem_insertUniq _ _)))
      · simp only [if_neg hc]
        exact mem_allIds_addEffects_of_mem a ic xs e _
          (List.mem_append.mpr (Or.inr (self_mem_insertUniq _ _)))
    · exact ih _ hxs

theorem mem_allIds_addEffects_sound (a : Option Nat) (ic : Nat → Bool) (dep : DepSet)
    (e : Nat) : ∀ b : Buckets, e ∈ allIds (addEffects a ic dep b) →
    e ∈ allIds b ∨ e ∈ dep := by
  induction dep with
  | nil => intro b hb; exact Or.inl hb
  | cons x xs ih =>
    intro b hb
    rw [addEffects, List.foldl_cons] at hb
    rcases ih _ hb with h | h
    · by_cases hx : some x = a
      · rw [if_pos hx] at h
        exact Or.inl h
      · rw [if_neg hx] at h
        by_cases hc : ic x
        · simp only [if_pos hc] at h
          rcases List.mem_append.mp h with h2 | h2
          · rcases (mem_insertUniq _ _ _).mp h2 with h3 | rfl
            · exact Or.inl (List.mem_append.mpr (Or.inl h3))
            · exact Or.inr (List.mem_cons_self _ _)
          · exact Or.inl (List.mem_append.mpr (Or.inr h2))
        · simp only [if_neg hc] at h
          rcases List.mem_append.mp h with h2 | h2
          · exact Or.inl (List.mem_append.mpr (Or.inl h2))
          · rcases (mem_insertUniq _ _ _).mp h2 with h3 | rfl
            · exact Or.inl (List.mem_append.mpr (Or.inr h3))
            · exact Or.inr (List.mem_cons_self _ _)
    · exact Or.inr (List.mem_cons_of_mem _ h)

/-- Bucket invariant maintained through the collection phase of trigger:
both buckets are duplicate-free, every effect in the derived bucket has
the computed option and every effect in the plain bucket lacks it. -/
def BInv (ic : Nat → Bool) (b : Buckets) : Prop :=
  b.derived.Nodup ∧ b.plain.Nodup ∧
    (∀ x ∈ b.derived, ic x = true) ∧ (∀ x ∈ b.plain, ic x = false)

theorem BInv_addEffects (a : Option Nat) (ic : Nat → Bool) (dep : DepSet) :
    ∀ b : Buckets, BInv ic b → BInv ic (addEffects a ic dep b) := by
  induction dep with
  | nil => intro b hb; exact hb
  | cons x xs ih =>
    intro b hb
    rw [addEffects, List.foldl_cons]
    apply ih
    obtain ⟨hd, hp, hcd, hcp⟩ := hb
    by_cases hx : some x = a
    · rw [if_pos hx]; exact ⟨hd, hp, hcd, hcp⟩
    · rw [if_neg hx]
      by_cases hc : ic x
      · simp only [if_pos hc]
        refine ⟨nodup_insertUniq _ _ hd, hp, ?_, hcp⟩
        intro y hy
        rcases (mem_insertUniq _ _ _).mp hy with h | rfl
        · exact hcd y h
        · exact hc
      · simp only [if_neg hc]
        refine ⟨hd, nodup_insertUniq _ _ hp, hcd, ?_⟩
        intro y hy
        rcases (mem_insertUniq _ _ _).mp hy with h | rfl
        · exact hcp y h
        · exact Bool.not_eq_true _ ▸ Bool.of_not_eq_true hc

theorem foldl_length_pres (a : Option Nat) (ic : Nat → Bool) (len : Nat)
    (P : Buckets → Prop) (hP : ∀ dep b, P b → P (addEffects a ic dep b)) :
    ∀ (m : DepsMap) (b : Buckets), P b →
      P (m.foldl (fun b p => if keyGeLen p.1 len then addEffects a ic p.2 b else b) b) := by
  intro m
  induction m with
  | nil => intro b hb; exact hb
  | cons p ps ih =>
    intro b hb
    rw [List.foldl_cons]
    apply ih
    by_cases h : keyGeLen p.1 len
    · rw [if_pos h]; exact hP _ _ hb
    · rw [if_neg h]; exact hb

theorem foldl_length_sound (a : Option Nat) (ic : Nat → Bool) (len : Nat) (e : Nat) :
    ∀ (m : DepsMap) (b : Buckets),
      e ∈ allIds (m.foldl (fun b p => if keyGeLen p.1 len then addEffects a ic p.2 b else b) b) →
      e ∈ allIds b ∨ ∃ p, p ∈ m ∧ e ∈ p.2 := by
  intro m
  induction m with
  | nil => intro b hb; exact Or.inl hb
  | cons p ps ih =>
    intro b hb
    rw [List.foldl_cons] at hb
    rcases ih _ hb with h | ⟨q, hq, hqe⟩
    · by_cases hk : keyGeLen p.1 len
      · rw [if_pos hk] at h
        rcases mem_allIds_addEffects_sound a ic p.2 e b h with h2 | h2
        · exact Or.inl h2
        · exact Or.inr ⟨p, List.mem_cons_self _ _, h2⟩
      · rw [if_neg hk] at h
        exact Or.inl h
    · exact Or.inr ⟨q, List.mem_cons_of_mem _ hq, hqe⟩

theorem foldl_length_complete (a : Option Nat) (ic : Nat → Bool) (len : Nat) (e : Nat)
    (kp : JKey × DepSet) (hge : keyGeLen kp.1 len = true) (he : e ∈ kp.2)
    (hne : some e ≠ a) :
    ∀ (m : DepsMap) (b : Buckets), kp ∈ m →
      e ∈ allIds (m.foldl (fun b p => if keyGeLen p.1 len then addEffects a ic p.2 b else b) b) := by
  intro m
  induction m with
  | nil => intro b hb; exact absurd hb (List.not_mem_nil kp)
  | cons p ps ih =>
    intro b hb
    rw [List.foldl_cons]
    rcases List.mem_cons.mp hb with rfl | hps
    · rw [if_pos hge]
      exact foldl_length_pres a ic len (fun b => e ∈ allIds b)
        (fun dep b hb => mem_allIds_addEffects_of_mem a ic dep e b hb) ps _
        (mem_allIds_addEffects_complete a ic kp.2 e hne b he)
    · exact ih _ hps

theorem mem_lookupD_exists {κ : Type} [DecidableEq κ] (r : List (κ × List Nat))
    (k : κ) (e : Nat) (h : e ∈ lookupD r k []) : ∃ p, p ∈ r ∧ e ∈ p.2 ∧ p.1 = k := by
  unfold lookupD at h
  cases hf : r.find? (fun p => decide (p.1 = k)) with
  | none => rw [hf] at h; exact absurd h (List.not_mem_nil e)
  | some q =>
    rw [hf] at h
    have hq := List.mem_of_find?_eq_some hf
    have hk := List.find?_some hf
    simp only [decide_eq_true_eq] at hk
    exact ⟨q, hq, h, hk⟩

theorem BInv_triggerWithLen (active : Option Nat) (ic : Nat → Bool) (m : DepsMap)
    (isArr : Bool) (key : JKey) (kind : ChangeKind) :
    BInv ic (triggerWithLen active ic m isArr key kind) := by
  have h0 : BInv ic (⟨[], []⟩ : Buckets) := by
    refine ⟨List.nodup_nil, List.nodup_nil, ?_, ?_⟩ <;>
      (intro x hx; exact absurd hx (List.not_mem_nil x))
  have hb0 : BInv ic (triggerBase active ic m key) :=
    BInv_addEffects active ic (lookupD m key []) _ h0
  unfold triggerWithLen
  by_cases h1 : kind = ChangeKind.add ∧ isArr = true
  · rw [if_pos h1]
    exact BInv_addEffects active ic (lookupD m (JKey.name "length") []) _ hb0
  · rw [if_neg h1]
    exact hb0

theorem BInv_triggerCollect (active : Option Nat) (ic : Nat → Bool) (m : DepsMap)
    (isArr : Bool) (len : Nat) (key : JKey) (kind : ChangeKind) :
    BInv ic (triggerCollect active ic m isArr len key kind) := by
  have hb1 := BInv_triggerWithLen active ic m isArr key kind
  unfold triggerCollect
  by_cases h2 : key = JKey.name "length" ∧ isArr = true
  · rw [if_pos h2]
    exact foldl_length_pres active ic len (BInv ic) (BInv_addEffects active ic) m _ hb1
  · rw [if_neg h2]
    exact hb1

theorem nodup_triggerIds (active : Option Nat) (ic : Nat → Bool) (m : DepsMap)
    (isArr : Bool) (len : Nat) (key : JKey) (kind : ChangeKind) :
    (triggerIds active ic m isArr len key kind).Nodup := by
  obtain ⟨hd, hp, hcd, hcp⟩ := BInv_triggerCollect active ic m isArr len key kind
  unfold triggerIds allIds
  refine List.nodup_append.mpr ⟨hd, hp, ?_⟩
  intro x hxd hxp
  have h1 := hcd x hxd
  have h2 := hcp x hxp
  rw [h1] at h2
  exact Bool.noConfusion h2

theorem mem_allIds_triggerWithLen_of_key_dep (active : Option Nat) (ic : Nat → Bool)
    (m : DepsMap) (isArr : Bool) (key : JKey) (kind : ChangeKind) (e : Nat)
    (he : e ∈ lookupD m key []) (hne : some e ≠ active) :
    e ∈ allIds (triggerWithLen active ic m isArr key kind) := by
  have hb0 : e ∈ allIds (triggerBase active ic m key) :=
    mem_allIds_addEffects_complete active ic (lookupD m key []) e hne ⟨[], []⟩ he
  unfold triggerWithLen
  by_cases h1 : kind = ChangeKind.add ∧ isArr = true
  · rw [if_pos h1]
    exact mem_allIds_addEffects_of_mem active ic (lookupD m (JKey.name "length") []) e _ hb0
  · rw [if_neg h1]
    exact hb0

theorem mem_triggerIds_of_key_dep (active : Option Nat) (ic : Nat → Bool) (m : DepsMap)
    (isArr : Bool) (len : Nat) (key : JKey) (kind : ChangeKind) (e : Nat)
    (he : e ∈ lookupD m key []) (hne : some e ≠ active) :
    e ∈ triggerIds active ic m isArr len key kind := by
  have hb1 := mem_allIds_triggerWithLen_of_key_dep active ic m isArr key kind e he hne
  unfold triggerIds triggerCollect
  by_cases h2 : key = JKey.name "length" ∧ isArr = true
  · rw [if_pos h2]
    exact foldl_length_pres active ic len (fun b => e ∈ allIds b)
      (fun dep b hb => mem_allIds_addEffects_of_mem active ic dep e b hb) m _ hb1
  · rw [if_neg h2]; exact hb1

theorem mem_triggerIds_of_length_dep (active : Option Nat) (ic : Nat → Bool) (m : DepsMap)
    (len : Nat) (key : JKey) (e : Nat)
    (he : e ∈ lookupD m (JKey.name "length") []) (hne : some e ≠ active) :
    e ∈ triggerIds active ic m true len key ChangeKind.add := by
  have hb1 : e ∈ allIds (triggerWithLen active ic m true key ChangeKind.add) := by
    unfold triggerWithLen
    rw [if_pos ⟨rfl, rfl⟩]
    exact mem_allIds_addEffects_complete active ic (lookupD m (JKey.name "length") []) e hne _ he
  unfold triggerIds triggerCollect
  by_cases h2 : key = JKey.name "length" ∧ (true : Bool) = true
  · rw [if_pos h2]
    exact foldl_length_pres active ic len (fun b => e ∈ allIds b)
      (fun dep b hb => mem_allIds_addEffects_of_mem active ic dep e b hb) m _ hb1
  · rw [if_neg h2]
    exact hb1

theorem mem_triggerIds_of_index_entry (active : Option Nat) (ic : Nat → Bool) (m : DepsMap)
    (len : Nat) (kind : ChangeKind) (e : Nat) (kp : JKey × DepSet)
    (hkp : kp ∈ m) (hge : keyGeLen kp.1 len = true) (he : e ∈ kp.2) (hne : some e ≠ active) :
    e ∈ triggerIds active ic m true len (JKey.name "length") kind := by
  unfold triggerIds triggerCollect
  rw [if_pos ⟨rfl, rfl⟩]
  exact foldl_length_complete active ic len e kp hge he hne m _ hkp

theorem mem_triggerWithLen_sound (active : Option Nat) (ic : Nat → Bool) (m : DepsMap)
    (isArr : Bool) (key : JKey) (kind : ChangeKind) (e : Nat)
    (h : e ∈ allIds (triggerWithLen active ic m isArr key kind)) :
    ∃ p, p ∈ m ∧ e ∈ p.2 := by
  have sound0 : e ∈ allIds (triggerBase active ic m key) → ∃ p, p ∈ m ∧ e ∈ p.2 := by
    intro hb
    rcases mem_allIds_addEffects_sound active ic _ e _ hb with h2 | h2
    · exact absurd h2 (List.not_mem_nil e)
    · obtain ⟨p, hp, hpe, -⟩ := mem_lookupD_exists m key e h2
      exact ⟨p, hp, hpe⟩
  unfold triggerWithLen at h
  by_cases h1 : kind = ChangeKind.add ∧ isArr = true
  · rw [if_pos h1] at h
    rcases mem_allIds_addEffects_sound active ic _ e _ h with h2 | h2
    · exact sound0 h2
    · obtain ⟨p, hp, hpe, -⟩ := mem_lookupD_exists m (JKey.name "length") e h2
      exact ⟨p, hp, hpe⟩
  · rw [if_neg h1] at h
    exact sound0 h

theorem mem_triggerIds_sound (active : Option Nat) (ic : Nat → Bool) (m : DepsMap)
    (isArr : Bool) (len : Nat) (key : JKey) (kind : ChangeKind) (e : Nat)
    (h : e ∈ triggerIds active ic m isArr len key kind) :
    ∃ p, p ∈ m ∧ e ∈ p.2 := by
  unfold triggerIds triggerCollect at h
  by_cases h2 : key = JKey.name "length" ∧ isArr = true
  · rw [if_pos h2] at h
    rcases foldl_length_sound active ic len e m _ h with h3 | ⟨p, hp, hpe⟩
    · exact mem_triggerWithLen_sound active ic m isArr key kind e h3
    · exact ⟨p, hp, hpe⟩
  · rw [if_neg h2] at h
    exact mem_triggerWithLen_sound active ic m isArr key kind e h

theorem count_one_triggerIds (active : Option Nat) (ic : Nat → Bool) (m : DepsMap)
    (isArr : Bool) (len : Nat) (key : JKey) (kind : ChangeKind) (e : Nat)
    (h : e ∈ triggerIds active ic m isArr len key kind) :
    (triggerIds active ic m isArr len key kind).count e = 1 :=
  List.count_eq_one_of_mem (nodup_triggerIds active ic m isArr len key kind) h

/-- Prior-existence test of the proxy set handler (src:261-263): for an
array target the JS code compares Number(key) with the current length,
which is false for every non-numeric key since ToNumber yields NaN there;
for a plain object it asks hasOwnProperty, modelled by membership in the
list of own keys. -/
def hadKeyOf (isArr : Bool) (ownKeys : List JKey) (key : JKey) (len : Nat) : Bool :=
  if isArr then
    match key with
    | .idx n => decide (n < len)
    | _ => false
  else decide (key ∈ ownKeys)

/-- Decision of the proxy set handler (src:265-271) on whether and how to
trigger after the underlying write: a missing key triggers an addition;
an existing key triggers a set exactly when the new value is strictly
unequal to the old one and they are not both NaN (the self-equality
disjunction in the source); otherwise nothing is triggered. -/
def setDecision (hadKey : Bool) (oldValue value : JVal) : Option ChangeKind :=
  if !hadKey then some ChangeKind.add
  else if !(strictEq value oldValue) && (strictEq value value || strictEq oldValue oldValue) then
    some ChangeKind.set
  else none

/-- Effect ids notified by one intercepted property write (the set handler
src:259-274 followed by trigger src:184-238). The lengths before and after
the write are passed separately because trigger runs after Reflect.set,
so its length checks see the new length. -/
def proxySetIds (active : Option Nat) (isComputed : Nat → Bool) (m : DepsMap)
    (isArr : Bool) (ownKeys : List JKey) (oldLen newLen : Nat) (key : JKey)
    (oldValue value : JVal) : List Nat :=
  match setDecision (hadKeyOf isArr ownKeys key oldLen) oldValue value with
  | some kind => triggerIds active isComputed m isArr newLen key kind
  | none => []

/-- Setter of a ref (src:340-345): the new value is compared with plain
strict inequality (no NaN provision, unlike the proxy set handler); on
inequality the slot is updated and trigger runs on the value key of the
ref identity. The result pairs the stored value after the call with the
list of notified effect ids. -/
def refWrite (m : DepsMap) (active : Option Nat) (isComputed : Nat → Bool)
    (stored v : JVal) : JVal × List Nat :=
  if !(strictEq v stored) then
    (v, triggerIds active isComputed m false 0 (JKey.name "value") ChangeKind.set)
  else (stored, [])

/-- Memoization state of a computed ref (src:404-405): the dirty flag
(initialized true), the cached value, and an instrumentation counter of
how often the backing getter has run. -/
structure ComputedState where
  dirty : Bool
  value : JVal
  runs : Nat
deriving DecidableEq, Repr

/-- Read of the value property of a computed ref (src:421-428): when
dirty, the backing effect runs the getter (modelled by the value g the
getter currently computes, constant while no upstream change intervenes),
the result is cached and the flag cleared; in every case track is then
called on the identity of the computed ref with the value key, with the
outer reader (not the backing effect) as the running computation. The
returned value is the cache after the possible refresh. -/
def computedRead (cid : Nat) (g : JVal) (active : Option Nat)
    (eng : EffEngine) (cs : ComputedState) : (EffEngine × ComputedState) × JVal :=
  let cs2 := if cs.dirty then { dirty := false, value := g, runs := cs.runs + 1 } else cs
  ((track eng active cid (JKey.name "value"), cs2), cs2.value)

/-- Repeated reads of a computed ref with no intervening upstream change:
the state after n consecutive reads. -/
def computedReadN (cid : Nat) (g : JVal) (active : Option Nat) :
    Nat → EffEngine × ComputedState → EffEngine × ComputedState
  | 0, s => s
  | n + 1, s => computedReadN cid g active n (computedRead cid g active s.1 s.2).1

/-- Scheduler of the backing effect of a computed ref (src:410-415),
invoked when an upstream dependency triggers: when not already dirty, the
flag is set and the dependents of the computed ref itself are notified
(the getter is not run). The boolean reports whether that notification
happened. -/
def computedSched (cs : ComputedState) : ComputedState × Bool :=
  if !cs.dirty then ({ cs with dirty := true }, true) else (cs, false)

/-- Cache of reactive proxies (src:299, reactiveMap): raw object id to
proxy id, together with a supply of fresh proxy ids. -/
structure ReactiveCache where
  entries : List (Nat × Nat)
  fresh : Nat
deriving DecidableEq, Repr

/-- Values as seen by the wrapping layer: a primitive (including null), a
raw unwrapped object, or a reactive proxy. Raw objects are modelled as not
carrying the reserved sentinel key __isReactive as an own property. -/
inductive RTarget where
  | prim : JVal → RTarget
  | raw : Nat → RTarget
  | proxy : Nat → RTarget
deriving DecidableEq, Repr

/-- Function reactive (src:306-326): non-objects pass through unchanged;
a proxy answers true to the __isReactive probe and is returned as is; a
raw object is looked up in the cache, and on a miss a fresh proxy is
created and cached. -/
def reactiveF (c : ReactiveCache) (t : RTarget) : ReactiveCache × RTarget :=
  match t with
  | .prim v => (c, .prim v)
  | .proxy p => (c, .proxy p)
  | .raw r =>
    match c.entries.find? (fun p => decide (p.1 = r)) with
    | some p => (c, .proxy p.2)
    | none => (⟨c.entries ++ [(r, c.fresh)], c.fresh + 1⟩, .proxy c.fresh)

/-- Sequential application of reactive to a list of targets, used to state
cache stability across arbitrary interleaved calls. -/
def runSeq (c : ReactiveCache) (ts : List RTarget) : ReactiveCache :=
  ts.foldl (fun c t => (reactiveF c t).1) c

/-- Proxy test on a wrapped-layer value. -/
def isProxyT : RTarget → Bool
  | .proxy _ => true
  | _ => false

/-- Read interception of the proxy (src:242-257): the underlying read
result is given as an argument; track runs on (target, key) with the
current computation, and an object result is lazily wrapped through
reactive while a primitive result is returned unchanged. -/
def proxyGet (c : ReactiveCache) (eng : EffEngine) (active : Option Nat)
    (tgt : Nat) (key : JKey) (result : RTarget) : (ReactiveCache × EffEngine) × RTarget :=
  let eng2 := track eng active tgt key
  match result with
  | .prim v => ((c, eng2), .prim v)
  | r => (((reactiveF c r).1, eng2), (reactiveF c r).2)

/-- Getter of the value property of a ref (src:336-339): track runs on the
ref identity with the fixed value key and the stored value is returned as
is, without any wrapping. -/
def refRead (rid : Nat) (active : Option Nat) (eng : EffEngine) (stored : RTarget) :
    EffEngine × RTarget :=
  (track eng active rid (JKey.name "value"), stored)

/-- Host-level dispatch of a property write: only a Proxy intercepts
property assignment with the reactive set handler, so a write through a
raw object or a primitive reaches no track or trigger machinery and
notifies nothing. -/
def propWriteIds (active : Option Nat) (isComputed : Nat → Bool) (m : DepsMap)
    (isArr : Bool) (ownKeys : List JKey) (oldLen newLen : Nat) (t : RTarget)
    (key : JKey) (oldValue value : JVal) : List Nat :=
  match t with
  | .proxy _ => proxySetIds active isComputed m isArr ownKeys oldLen newLen key oldValue value
  | _ => []

/-- Flush policies of a watcher (src:485-491): sync runs the job inline
inside the triggering write, post defers behind a resolved promise plus a
microtask, and the default defers by one microtask. -/
inductive FlushMode where
  | sync : FlushMode
  | post : FlushMode
  | deferred : FlushMode
deriving DecidableEq, Repr

/-- Object test used by the firing condition of the watch job
(src:475-476). -/
def isObjV : JVal → Bool
  | .obj _ => true
  | _ => false

/-- State of a watcher over a single ref source with getter reading the
value of that ref: the dependency map registered on the ref identity, the
current ref value, and the last observed value held by the watcher
(src:446, oldValue). -/
structure WatchEngine where
  depsMap : DepsMap
  refVal : JVal
  oldValue : JVal
deriving DecidableEq, Repr

/-- Watch job (src:470-480) for a getter reading the ref: the effect runs
the getter yielding the current ref value; the callback fires when deep is
requested, or the new value differs from the old by strict inequality, or
the new value is an object; on firing the recorded old value advances.
The option carries the callback invocation with its new/old pair. -/
def watchJob (deep : Bool) (s : WatchEngine) : WatchEngine × Option (JVal × JVal) :=
  let newValue := s.refVal
  if deep || !(strictEq newValue s.oldValue) || isObjV newValue then
    ({ s with oldValue := newValue }, some (newValue, s.oldValue))
  else (s, none)

/-- Scheduler dispatch of the watcher effect (src:484-492) folded over the
notified effect ids: the sync flush runs the job inline, accumulating its
callback invocation in the synchronous list; the other flushes queue the
job on the microtask queue, modelled by the deferred list. Ids other than
the watcher effect are left to their own schedulers and ignored here. -/
def watchSchedStep (wid : Nat) (deep : Bool) (flush : FlushMode)
    (acc : WatchEngine × List (JVal × JVal) × List FlushMode) (e : Nat) :
    WatchEngine × List (JVal × JVal) × List FlushMode :=
  if e = wid then
    match flush with
    | .sync =>
      ((watchJob deep acc.1).1, acc.2.1 ++ (watchJob deep acc.1).2.toList, acc.2.2)
    | f => (acc.1, acc.2.1, acc.2.2 ++ [f])
  else acc

/-- One write to the value property of the watched ref (src:340-345)
followed by the trigger replay (src:184-238) dispatching into the watch
scheduler (src:484-492). Returns the state after the write together with
the callback invocations that happened synchronously inside the write and
the jobs queued for later microtasks. The watcher effect is a plain
(non-computed) effect carrying a scheduler. -/
def refWriteWatch (wid : Nat) (deep : Bool) (flush : FlushMode)
    (s : WatchEngine) (v : JVal) : WatchEngine × List (JVal × JVal) × List FlushMode :=
  if !(strictEq v s.refVal) then
    let s1 : WatchEngine := { s with refVal := v }
    let ids := triggerIds none (fun _ => false) s1.depsMap false 0
      (JKey.name "value") ChangeKind.set
    ids.foldl (watchSchedStep wid deep flush) (s1, [], [])
  else (s, [], [])

/-- State of the batch controller (src:533-534): the module-wide
isBatching flag and the queue of effects pending replay; the queue entries
are effect ids and flushing them invokes the effects. -/
structure BatchState where
  isBatching : Bool
  queue : List Nat
deriving DecidableEq, Repr

/-- Function batch (src:536-545): the flag is raised, the body runs (its
effect on the batch state and the list of effect invocations it performed
are given by f), and the finally block then clears the flag, invokes every
queued effect and clears the queue — unconditionally, with no re-entrancy
guard. The returned list is the full sequence of effect invocations
observed during the call. -/
def batchRun (f : BatchState → BatchState × List Nat) (s : BatchState) :
    BatchState × List Nat :=
  let r := f { s with isBatching := true }
  (⟨false, []⟩, r.2 ++ r.1.queue)

theorem strictEq_self (v : JVal) (h : v ≠ JVal.nan) : strictEq v v = true := by
  cases v <;> simp_all [strictEq]

theorem setDecision_existing_none (oldV newV : JVal)
    (h : strictEq newV oldV = true ∨ (newV = JVal.nan ∧ oldV = JVal.nan)) :
    setDecision true oldV newV = none := by
  rcases h with h | ⟨rfl, rfl⟩
  · simp [setDecision, h]
  · simp [setDecision, strictEq]

theorem setDecision_existing_set (oldV newV : JVal)
    (h1 : strictEq newV oldV = false) (h2 : ¬(newV = JVal.nan ∧ oldV = JVal.nan)) :
    setDecision true oldV newV = some ChangeKind.set := by
  have hself : (strictEq newV newV || strictEq oldV oldV) = true := by
    by_cases hn : newV = JVal.nan
    · have ho : oldV ≠ JVal.nan := fun hc => h2 ⟨hn, hc⟩
      rw [strictEq_self oldV ho, Bool.or_true]
    · rw [strictEq_self newV hn, Bool.true_or]
  simp [setDecision, h1, hself]

/-- Claim C1 as frozen is refuted by array containers: the container is an
array whose own keys include the non-index key foo (so foo is an existing
key), and the value written is strictly equal to the stored one, yet the
registered dependent 3 is notified, because the prior-existence test of
the set handler (src:261-263) compares Number(key) with the length for
arrays, classifying every existing non-index key as newly added and
triggering with the add kind unconditionally. -/
theorem claim_C1_counterexample :
    proxySetIds none (fun _ => false) [(JKey.name "foo", [3])] true [JKey.name "foo"]
      0 0 (JKey.name "foo") (JVal.num 1) (JVal.num 1) = [3] := by
  rfl

/-- Claim C1, amended: for every key that the set handler itself
recognizes as pre-existing (an own property of a non-array container, or
a numeric index below the current length of an array container), writing
a strictly equal value, or NaN over NaN, notifies no dependent, while
writing a NaN-safe different value notifies every effect registered in
the dependency set of that key, other than the currently running one,
exactly once per write regardless of duplicate routes into the trigger
collection. -/
theorem claim_C1_set_trigger (active : Option Nat) (ic : Nat → Bool) (m : DepsMap)
    (isArr : Bool) (ownKeys : List JKey) (oldLen newLen : Nat) (key : JKey)
    (oldV newV : JVal) (hHad : hadKeyOf isArr ownKeys key oldLen = true) :
    ((strictEq newV oldV = true ∨ (newV = JVal.nan ∧ oldV = JVal.nan)) →
      proxySetIds active ic m isArr ownKeys oldLen newLen key oldV newV = []) ∧
    ((strictEq newV oldV = false ∧ ¬(newV = JVal.nan ∧ oldV = JVal.nan)) →
      ∀ e, e ∈ lookupD m key [] → some e ≠ active →
        (proxySetIds active ic m isArr ownKeys oldLen newLen key oldV newV).count e = 1) := by
  constructor
  · intro h
    have hdec : setDecision (hadKeyOf isArr ownKeys key oldLen) oldV newV = none := by
      rw [hHad]
      exact setDecision_existing_none oldV newV h
    simp [proxySetIds, hdec]
  · rintro ⟨h1, h2⟩ e he hne
    have hdec : setDecision (hadKeyOf isArr ownKeys key oldLen) oldV newV =
        some ChangeKind.set := by
      rw [hHad]
      exact setDecision_existing_set oldV newV h1 h2
    have hre : proxySetIds active ic m isArr ownKeys oldLen newLen key oldV newV =
        triggerIds active ic m isArr newLen key ChangeKind.set := by
      simp [proxySetIds, hdec]
    rw [hre]
    exact count_one_triggerIds active ic m isArr newLen key ChangeKind.set e
      (mem_triggerIds_of_key_dep active ic m isArr newLen key ChangeKind.set e he hne)

/-- Witness for claim C1: a non-array container with existing key of
index zero holding the number 1; writing 1 again notifies nothing, while
writing 2 notifies the registered dependent 3 exactly once. -/
theorem claim_C1_witness :
    proxySetIds none (fun _ => false) [(JKey.idx 0, [3])] false [JKey.idx 0]
      0 0 (JKey.idx 0) (JVal.num 1) (JVal.num 1) = [] ∧
    (proxySetIds none (fun _ => false) [(JKey.idx 0, [3])] false [JKey.idx 0]
      0 0 (JKey.idx 0) (JVal.num 1) (JVal.num 2)).count 3 = 1 := by
  constructor
  · exact (claim_C1_set_trigger none (fun _ => false) [(JKey.idx 0, [3])] false [JKey.idx 0]
      0 0 (JKey.idx 0) (JVal.num 1) (JVal.num 1) (by decide)).1 (Or.inl (by decide))
  · exact (claim_C1_set_trigger none (fun _ => false) [(JKey.idx 0, [3])] false [JKey.idx 0]
      0 0 (JKey.idx 0) (JVal.num 1) (JVal.num 2) (by decide)).2 ⟨by decide, by decide⟩
      3 (by decide) (by decide)

theorem computedRead_state (cid : Nat) (g : JVal) (active : Option Nat)
    (eng : EffEngine) (cs : ComputedState) :
    (computedRead cid g active eng cs).1.2 =
      (if cs.dirty then ⟨false, g, cs.runs + 1⟩ else cs) := rfl

theorem computedReadN_clean (cid : Nat) (g : JVal) (active : Option Nat) :
    ∀ (n : Nat) (s : EffEngine × ComputedState), s.2.dirty = false →
      (computedReadN cid g active n s).2 = s.2 := by
  intro n
  induction n with
  | zero => intro s _; rfl
  | succ k ih =>
    intro s hs
    show (computedReadN cid g active k (computedRead cid g active s.1 s.2).1).2 = s.2
    have hstep : (computedRead cid g active s.1 s.2).1.2 = s.2 := by
      rw [computedRead_state, if_neg (by simp [hs])]
    rw [ih _ (by rw [hstep, hs]), hstep]

/-- Claim C2: between two upstream dirty transitions the backing getter
of a computed ref runs at most once however many reads occur (the
instrumentation counter grows by at most one over any run of consecutive
reads); a read in the clean state returns the memoized value and leaves
the memo state untouched; and every read registers the currently running
computation, when there is one, in the dependency set of the computed ref
identity under the value key. -/
theorem claim_C2_computed_memo (cid : Nat) (g : JVal) (active : Option Nat)
    (eng : EffEngine) (cs : ComputedState) (n : Nat) :
    (computedReadN cid g active n (eng, cs)).2.runs ≤ cs.runs + 1 ∧
    (cs.dirty = false →
      (computedRead cid g active eng cs).1.2 = cs ∧
      (computedRead cid g active eng cs).2 = cs.value) ∧
    (∀ e, active = some e →
      e ∈ getDep (computedRead cid g active eng cs).1.1 cid (JKey.name "value")) := by
  refine ⟨?_, ?_, ?_⟩
  · by_cases hd : cs.dirty
    · cases n with
      | zero => exact Nat.le_succ cs.runs
      | succ k =>
        show (computedReadN cid g active k (computedRead cid g active eng cs).1).2.runs ≤
          cs.runs + 1
        have hstep : (computedRead cid g active eng cs).1.2 =
            (⟨false, g, cs.runs + 1⟩ : ComputedState) := by
          rw [computedRead_state, if_pos hd]
        rw [computedReadN_clean cid g active k _ (by rw [hstep]), hstep]
    · rw [computedReadN_clean cid g active n _ (by simpa using hd)]
      exact Nat.le_succ cs.runs
  · intro hd
    constructor
    · rw [computedRead_state, if_neg (by simp [hd])]
    · show (if cs.dirty then (⟨false, g, cs.runs + 1⟩ : ComputedState) else cs).value = cs.value
      rw [if_neg (by simp [hd])]
  · rintro e rfl
    exact self_mem_getDep_track eng e cid (JKey.name "value")

/-- Witness for claim C2: five consecutive reads of a clean computed ref
leave the run counter at its old value 1 (at most 2 is claimed), a clean
read returns the cached number 3, and the reading computation 2 lands in
the dependency set of the computed ref identity. -/
theorem claim_C2_witness :
    (computedReadN 0 (JVal.num 7) (some 2) 5
      (⟨[], [], [], []⟩, ⟨false, JVal.num 3, 1⟩)).2.runs ≤ 2 ∧
    (computedRead 0 (JVal.num 7) (some 2) ⟨[], [], [], []⟩ ⟨false, JVal.num 3, 1⟩).2 =
      JVal.num 3 ∧
    2 ∈ getDep (computedRead 0 (JVal.num 7) (some 2) ⟨[], [], [], []⟩
      ⟨false, JVal.num 3, 1⟩).1.1 0 (JKey.name "value") := by
  obtain ⟨h1, h2, h3⟩ := claim_C2_computed_memo 0 (JVal.num 7) (some 2)
    ⟨[], [], [], []⟩ ⟨false, JVal.num 3, 1⟩ 5
  exact ⟨h1, (h2 rfl).2, h3 2 rfl⟩

/-- Claim C3 as frozen is refuted: the setter of a ref (src:341) uses
plain strict inequality with no NaN provision, so writing NaN to a ref
whose stored value is already NaN does trigger: with dependent 4
registered under the value key, the write notifies [4]. -/
theorem claim_C3_counterexample :
    (refWrite [(JKey.name "value", [4])] none (fun _ => false) JVal.nan JVal.nan).2 = [4] := by
  rfl

/-- Claim C3, amended: assigning v to a ref triggers the dependents of the
ref exactly when v differs from the currently stored value by plain
strict inequality, under which NaN is unequal to itself, so writing NaN
over a stored NaN does notify dependents; the stored slot is updated
exactly in the triggering case. -/
theorem claim_C3_ref_set_trigger (m : DepsMap) (active : Option Nat) (ic : Nat → Bool)
    (stored v : JVal) (e : Nat) (he : e ∈ lookupD m (JKey.name "value") [])
    (ha : some e ≠ active) :
    (e ∈ (refWrite m active ic stored v).2 ↔ strictEq v stored = false) ∧
    (refWrite m active ic stored v).1 = (if strictEq v stored then stored else v) := by
  by_cases h : strictEq v stored
  · constructor
    · rw [refWrite, if_neg (by simp [h])]
      simp [h]
    · rw [refWrite, if_neg (by simp [h]), if_pos h]
  · have hfalse : strictEq v stored = false := Bool.of_not_eq_true h
    constructor
    · rw [refWrite, if_pos (by simp [hfalse])]
      simp only [hfalse, iff_true]
      exact mem_triggerIds_of_key_dep active ic m false 0 (JKey.name "value")
        ChangeKind.set e he ha
    · rw [refWrite, if_pos (by simp [hfalse]), if_neg h]

/-- Witness for claim C3: with dependent 4 registered, writing NaN over a
stored NaN notifies 4 (strict inequality holds), matching the amended
biconditional. -/
theorem claim_C3_witness :
    (4 ∈ (refWrite [(JKey.name "value", [4])] none (fun _ => false) JVal.nan JVal.nan).2 ↔
      strictEq JVal.nan JVal.nan = false) ∧
    (refWrite [(JKey.name "value", [4])] none (fun _ => false) JVal.nan JVal.nan).1 =
      (if strictEq JVal.nan JVal.nan then JVal.nan else JVal.nan) :=
  claim_C3_ref_set_trigger [(JKey.name "value", [4])] none (fun _ => false)
    JVal.nan JVal.nan 4 (by decide) (by decide)

theorem cleanupEff_no_residual (s : EffEngine) (e : Nat) (hbr : backrefOK s e = true) :
    ∀ tp ∈ (cleanupEff s e).targetMap, ∀ kp ∈ tp.2, e ∉ kp.2 := by
  intro tp2 htp2 kp2 hkp2 hmem
  unfold cleanupEff at htp2
  simp only at htp2
  obtain ⟨tp, htp, rfl⟩ := List.mem_map.mp htp2
  obtain ⟨kp, hkp, rfl⟩ := List.mem_map.mp hkp2
  by_cases hin : (tp.1, kp.1) ∈ getEffDeps s e
  · rw [if_pos hin] at hmem
    have := (List.mem_filter.mp hmem).2
    simp at this
  · rw [if_neg hin] at hmem
    have hall := (List.all_eq_true.mp hbr) tp htp
    have hall2 := (List.all_eq_true.mp hall) kp hkp
    rw [decide_eq_true_eq] at hall2
    exact hin (hall2 hmem)

/-- Claim C4: after stop on an active effect whose back-references cover
its registry membership (the consistency track maintains), the effect
belongs to no dependency set of any target, its active flag is cleared
and its onStop hook has run, and any subsequent trigger on any (target,
key) pair notifies it zero times. -/
theorem claim_C4_stop (s : EffEngine) (e : Nat)
    (hbr : backrefOK s e = true) (hact : isActiveE s e = true) :
    (∀ tp ∈ (stopEff s e true).targetMap, ∀ kp ∈ tp.2, e ∉ kp.2) ∧
    isActiveE (stopEff s e true) e = false ∧
    e ∈ (stopEff s e true).effStopped ∧
    (∀ (tgt : Nat) (active : Option Nat) (ic : Nat → Bool) (isArr : Bool) (len : Nat)
      (key : JKey) (kind : ChangeKind),
      e ∉ triggerIds active ic (lookupD (stopEff s e true).targetMap tgt []) isArr len key kind) := by
  have hstop : stopEff s e true =
      { cleanupEff s e with
        effActive := setA (cleanupEff s e).effActive e false,
        effStopped := (cleanupEff s e).effStopped ++ [e] } := by
    rw [stopEff, if_pos hact]
    rfl
  have hres : ∀ tp ∈ (stopEff s e true).targetMap, ∀ kp ∈ tp.2, e ∉ kp.2 := by
    rw [hstop]
    exact cleanupEff_no_residual s e hbr
  refine ⟨hres, ?_, ?_, ?_⟩
  · rw [hstop]
    show lookupD (setA (cleanupEff s e).effActive e false) e true = false
    exact lookupD_setA (cleanupEff s e).effActive e false true
  · rw [hstop]
    exact List.mem_append.mpr (Or.inr (List.mem_singleton.mpr rfl))
  · intro tgt active ic isArr len key kind hmem
    obtain ⟨kp, hkp, hke⟩ := mem_triggerIds_sound active ic _ isArr len key kind e hmem
    revert hkp
    unfold lookupD
    cases hf : (stopEff s e true).targetMap.find? (fun p => decide (p.1 = tgt)) with
    | none =>
      intro hkp
      exact absurd hkp (List.not_mem_nil kp)
    | some tp =>
      intro hkp
      exact hres tp (List.mem_of_find?_eq_some hf) kp hkp hke

/-- Witness for claim C4: a concrete engine where effect 7 tracks index 0
and the length key of target 0; after stop, 7 is inactive, its onStop hook
has run, and a trigger on the previously tracked index notifies nothing. -/
theorem claim_C4_witness :
    isActiveE (stopEff ⟨[(0, [(JKey.idx 0, [7]), (JKey.name "length", [7])])],
      [(7, [(0, JKey.idx 0), (0, JKey.name "length")])], [(7, true)], []⟩ 7 true) 7 = false ∧
    7 ∈ (stopEff ⟨[(0, [(JKey.idx 0, [7]), (JKey.name "length", [7])])],
      [(7, [(0, JKey.idx 0), (0, JKey.name "length")])], [(7, true)], []⟩ 7 true).effStopped ∧
    7 ∉ triggerIds none (fun _ => false)
      (lookupD (stopEff ⟨[(0, [(JKey.idx 0, [7]), (JKey.name "length", [7])])],
        [(7, [(0, JKey.idx 0), (0, JKey.name "length")])], [(7, true)], []⟩ 7 true).targetMap 0 [])
      false 0 (JKey.idx 0) ChangeKind.set := by
  obtain ⟨-, h2, h3, h4⟩ := claim_C4_stop
    ⟨[(0, [(JKey.idx 0, [7]), (JKey.name "length", [7])])],
      [(7, [(0, JKey.idx 0), (0, JKey.name "length")])], [(7, true)], []⟩ 7
    (by decide) (by decide)
  exact ⟨h2, h3, h4 0 none (fun _ => false) false 0 (JKey.idx 0) ChangeKind.set⟩

/-- Claim C5: the replay sequence of any trigger call splits as a block of
derived (computed-option) effect replays followed by a block of plain
effect replays, each effect dispatched through its scheduler when it has
one and run directly otherwise, so every derived computation is replayed
before any plain one. -/
theorem claim_C5_derived_first (active : Option Nat) (ic hs : Nat → Bool) (m : DepsMap)
    (isArr : Bool) (len : Nat) (key : JKey) (kind : ChangeKind) :
    ∃ ds ps,
      triggerReplay active ic hs m isArr len key kind = ds ++ ps ∧
      (∀ x ∈ ds, ∃ e, x = (if hs e then ReplayAct.viaSched e else ReplayAct.direct e) ∧
        ic e = true) ∧
      (∀ x ∈ ps, ∃ e, x = (if hs e then ReplayAct.viaSched e else ReplayAct.direct e) ∧
        ic e = false) := by
  obtain ⟨-, -, hcd, hcp⟩ := BInv_triggerCollect active ic m isArr len key kind
  refine ⟨replayOf hs (triggerCollect active ic m isArr len key kind).derived,
    replayOf hs (triggerCollect active ic m isArr len key kind).plain, rfl, ?_, ?_⟩
  · intro x hx
    obtain ⟨e, he, rfl⟩ := List.mem_map.mp hx
    exact ⟨e, rfl, hcd e he⟩
  · intro x hx
    obtain ⟨e, he, rfl⟩ := List.mem_map.mp hx
    exact ⟨e, rfl, hcp e he⟩

/-- Witness for claim C5: the split instantiated at a trigger carrying one
derived effect 1 and one plain effect 2 in the same dependency set. -/
theorem claim_C5_witness :
    ∃ ds ps,
      triggerReplay none (fun e => decide (e = 1)) (fun e => decide (e = 1))
        [(JKey.idx 0, [2, 1])] false 0 (JKey.idx 0) ChangeKind.set = ds ++ ps ∧
      (∀ x ∈ ds, ∃ e, x = (if decide (e = 1) then ReplayAct.viaSched e else ReplayAct.direct e) ∧
        decide (e = 1) = true) ∧
      (∀ x ∈ ps, ∃ e, x = (if decide (e = 1) then ReplayAct.viaSched e else ReplayAct.direct e) ∧
        decide (e = 1) = false) :=
  claim_C5_derived_first none (fun e => decide (e = 1)) (fun e => decide (e = 1))
    [(JKey.idx 0, [2, 1])] false 0 (JKey.idx 0) ChangeKind.set

/-- Claim C6: on an array container, a write creating a new index (the
prior-existence test fails because the index is at or beyond the old
length, so the trigger kind is add) notifies every effect registered on
the synthetic length key other than the running one; and a write of a
smaller value to the length key notifies every effect registered in any
dependency-map entry whose key is a numeric index at or beyond the new
length, other than the running one. -/
theorem claim_C6_array_edges (active : Option Nat) (ic : Nat → Bool) (m : DepsMap)
    (ownKeys : List JKey) (oldLen newLen : Nat) (oldV newV : JVal) :
    (∀ (n e : Nat), oldLen ≤ n → e ∈ lookupD m (JKey.name "length") [] → some e ≠ active →
      e ∈ proxySetIds active ic m true ownKeys oldLen newLen (JKey.idx n) oldV newV) ∧
    (∀ (kp : JKey × DepSet) (n e : Nat), newLen < oldLen → kp ∈ m → kp.1 = JKey.idx n →
      newLen ≤ n → e ∈ kp.2 → some e ≠ active →
      e ∈ proxySetIds active ic m true ownKeys oldLen newLen (JKey.name "length") oldV newV) := by
  constructor
  · intro n e hge he hne
    have hdec : setDecision (hadKeyOf true ownKeys (JKey.idx n) oldLen) oldV newV =
        some ChangeKind.add := by
      have hhad : hadKeyOf true ownKeys (JKey.idx n) oldLen = false := by
        simp [hadKeyOf, Nat.not_lt.mpr hge]
      rw [hhad]
      rfl
    have hre : proxySetIds active ic m true ownKeys oldLen newLen (JKey.idx n) oldV newV =
        triggerIds active ic m true newLen (JKey.idx n) ChangeKind.add := by
      simp [proxySetIds, hdec]
    rw [hre]
    exact mem_triggerIds_of_length_dep active ic m newLen (JKey.idx n) e he hne
  · intro kp n e _hlt hkp hk1 hge he hne
    have hdec : setDecision (hadKeyOf true ownKeys (JKey.name "length") oldLen) oldV newV =
        some ChangeKind.add := rfl
    have hre : proxySetIds active ic m true ownKeys oldLen newLen (JKey.name "length") oldV newV =
        triggerIds active ic m true newLen (JKey.name "length") ChangeKind.add := by
      simp [proxySetIds, hdec]
    rw [hre]
    exact mem_triggerIds_of_index_entry active ic m newLen ChangeKind.add e kp hkp
      (by rw [hk1]; exact decide_eq_true_eq.mpr hge) he hne

/-- Witness for claim C6: pushing index 3 onto an array of old length 3
notifies the length dependent 9, and shrinking the length of a three
element array to 1 notifies the dependent 8 registered on index 2. -/
theorem claim_C6_witness :
    9 ∈ proxySetIds none (fun _ => false) [(JKey.name "length", [9])] true [] 3 4
      (JKey.idx 3) JVal.undef (JVal.num 4) ∧
    8 ∈ proxySetIds none (fun _ => false) [(JKey.idx 2, [8])] true [] 3 1
      (JKey.name "length") (JVal.num 3) (JVal.num 1) := by
  constructor
  · exact (claim_C6_array_edges none (fun _ => false) [(JKey.name "length", [9])] [] 3 4
      JVal.undef (JVal.num 4)).1 3 9 (by decide) (by decide) (by decide)
  · exact (claim_C6_array_edges none (fun _ => false) [(JKey.idx 2, [8])] [] 3 1
      (JVal.num 3) (JVal.num 1)).2 (JKey.idx 2, [8]) 2 8 (by decide)
      (List.mem_singleton.mpr rfl) rfl (by decide) (by decide) (by decide)

/-- Claim C7: a watcher with the sync flush over a getter reading a ref
whose established old value is 1 fires its change callback with new value
9 and old value 1 inside the very write call that assigns 9, before
control returns to the writer: the write returns the synchronous callback
record [(9, 1)] and queues nothing on the microtask queue. -/
theorem claim_C7_sync_flush :
    refWriteWatch 0 false FlushMode.sync
      ⟨[(JKey.name "value", [0])], JVal.num 1, JVal.num 1⟩ (JVal.num 9) =
      (⟨[(JKey.name "value", [0])], JVal.num 9, JVal.num 9⟩,
        [(JVal.num 9, JVal.num 1)], []) := by
  rfl

theorem find?_entries_reactiveF (c : ReactiveCache) (t : RTarget)
    (f : Nat × Nat → Bool) (x : Nat × Nat) (h : c.entries.find? f = some x) :
    ((reactiveF c t).1).entries.find? f = some x := by
  cases t with
  | prim v => exact h
  | proxy p => exact h
  | raw r =>
    cases hf : c.entries.find? (fun p => decide (p.1 = r)) with
    | some p =>
      simp only [reactiveF, hf]
      exact h
    | none =>
      simp only [reactiveF, hf]
      exact find?_append_some f c.entries [(r, c.fresh)] x h

theorem find?_entries_runSeq (f : Nat × Nat → Bool) (x : Nat × Nat) :
    ∀ (ts : List RTarget) (c : ReactiveCache), c.entries.find? f = some x →
      ((runSeq c ts).entries).find? f = some x := by
  intro ts
  induction ts with
  | nil => intro c h; exact h
  | cons t ts ih =>
    intro c h
    exact ih _ (find?_entries_reactiveF c t f x h)

/-- Claim C8: the function reactive is idempotent and identity stable:
non-object inputs pass through unchanged, an already reactive proxy is
returned as is, and for a raw object any later call — with arbitrary
interleaved reactive calls on other targets in between — returns the
identical proxy produced by the first call. -/
theorem claim_C8_reactive_idempotent (c : ReactiveCache) (v : JVal) (r p : Nat)
    (ts : List RTarget) :
    reactiveF c (RTarget.prim v) = (c, RTarget.prim v) ∧
    reactiveF c (RTarget.proxy p) = (c, RTarget.proxy p) ∧
    (reactiveF (runSeq (reactiveF c (RTarget.raw r)).1 ts) (RTarget.raw r)).2 =
      (reactiveF c (RTarget.raw r)).2 := by
  refine ⟨rfl, rfl, ?_⟩
  cases hf : c.entries.find? (fun q => decide (q.1 = r)) with
  | some q =>
    have h1 : reactiveF c (RTarget.raw r) = (c, RTarget.proxy q.2) := by
      simp [reactiveF, hf]
    have h2 : ((runSeq c ts).entries).find? (fun q => decide (q.1 = r)) = some q :=
      find?_entries_runSeq _ q ts c hf
    rw [h1]
    simp [reactiveF, h2]
  | none =>
    have h1 : reactiveF c (RTarget.raw r) =
        (⟨c.entries ++ [(r, c.fresh)], c.fresh + 1⟩, RTarget.proxy c.fresh) := by
      simp [reactiveF, hf]
    have hfound : (c.entries ++ [(r, c.fresh)]).find? (fun q => decide (q.1 = r)) =
        some (r, c.fresh) := by
      rw [List.find?_append, hf]
      simp [List.find?]
    have h2 : ((runSeq (⟨c.entries ++ [(r, c.fresh)], c.fresh + 1⟩ : ReactiveCache) ts).entries).find?
        (fun q => decide (q.1 = r)) = some (r, c.fresh) :=
      find?_entries_runSeq _ (r, c.fresh) ts _ hfound
    rw [h1]
    simp [reactiveF, h2]

/-- Claim C9 as frozen is refuted: the state below is the situation during
an outer batch (isBatching raised, effect 5 sitting in the replay queue);
an inner batch call with a body that touches nothing then completes, and
its finally block (src:540-544) clears the flag and flushes the queue,
invoking effect 5 — the claim requires the flag to stay raised and the
queue untouched until the outermost batch completes. -/
theorem claim_C9_counterexample :
    batchRun (fun t => (t, [])) ⟨true, [5]⟩ = (⟨false, []⟩, [5]) := by
  rfl

/-- Claim C9, amended: every batch call, nested or not, unconditionally
clears the batching flag, flushes the queued effects (appending them to
the invocation record) and empties the queue at its own completion;
nested batches therefore do not collapse into the outermost one. -/
theorem claim_C9_batch_always_flushes (f : BatchState → BatchState × List Nat)
    (s : BatchState) :
    (batchRun f s).1.isBatching = false ∧ (batchRun f s).1.queue = [] ∧
    (batchRun f s).2 =
      (f { s with isBatching := true }).2 ++ (f { s with isBatching := true }).1.queue :=
  ⟨rfl, rfl, rfl⟩

theorem isProxyT_reactiveF_raw (c : ReactiveCache) (r : Nat) :
    isProxyT (reactiveF c (RTarget.raw r)).2 = true := by
  cases hf : c.entries.find? (fun q => decide (q.1 = r)) <;>
    simp [reactiveF, hf, isProxyT]

/-- Claim C10: reading the value of a ref that stores a plain object
returns the stored raw object itself — not a proxy — after tracking only
the value key of the ref identity; a property write through that raw
object bypasses the set handler entirely and notifies nothing; by
contrast a read through a reactive container wraps an object result in a
proxy before returning it. -/
theorem claim_C10_ref_no_wrap (rid obj tgt : Nat) (active : Option Nat) (eng : EffEngine)
    (c : ReactiveCache) (ic : Nat → Bool) (m : DepsMap) (isArr : Bool)
    (ownKeys : List JKey) (oldLen newLen : Nat) (key : JKey) (oldV newV : JVal) :
    (refRead rid active eng (RTarget.raw obj)).2 = RTarget.raw obj ∧
    isProxyT (refRead rid active eng (RTarget.raw obj)).2 = false ∧
    (refRead rid active eng (RTarget.raw obj)).1 =
      track eng active rid (JKey.name "value") ∧
    propWriteIds active ic m isArr ownKeys oldLen newLen (RTarget.raw obj)
      key oldV newV = [] ∧
    isProxyT (proxyGet c eng active tgt key (RTarget.raw obj)).2 = true := by
  refine ⟨rfl, rfl, rfl, rfl, ?_⟩
  show isProxyT (reactiveF c (RTarget.raw obj)).2 = true
  exact isProxyT_reactiveF_raw c obj

end MonkeysJS
